import Mathlib

/-!
Verification development for the `best_image_tile` repository
(`src/best_tile.py`, class `BestTile`).

The embedding models:
* images and detail maps as dimension-tagged arrays of rational samples
  (the spec's floating-point samples, modelled exactly);
* the per-image pipeline `BestTile.process` as a pure function from the
  decode result to an outcome (skip / save), with the external grayscale
  and Laplacian collaborators abstracted as a parameter `lap`;
* the window search `best_tile` (provided to the code by an external
  module, absent from the repository sources) modelled from the spec;
* the sequential orchestrator loop of `BestTile.run` as a fold that
  mirrors the absence of any per-job exception handler.
-/

namespace BestTileSpec

/-- File names are modelled as lists of characters, so the name
manipulation of `process` (Python `img_name.split(".")`) can be embedded
structurally. -/
abbrev FName := List Char

/-- An RGB image: height, width, and a pixel function (row, column,
channel ↦ sample).  Samples are modelled as rationals. -/
structure Img where
  h : Nat
  w : Nat
  pix : Nat → Nat → Nat → ℚ

/-- A single-channel detail map: height, width, per-pixel magnitude. -/
structure DMap where
  h : Nat
  w : Nat
  val : Nat → Nat → ℚ

/-- NumPy slice `img[r:r+t, c:c+t]`: the resulting dimensions clamp at
the image border, and pixel (y, x) of the crop is pixel (r+y, c+x) of
the source. -/
def cropImg (img : Img) (r c t : Nat) : Img :=
  ⟨min t (img.h - r), min t (img.w - c), fun y x ch => img.pix (r + y) (c + x) ch⟩

/-- Sum of the t×t window of the detail map whose top-left corner is
(y, x). -/
def windowSum (m : DMap) (t y x : Nat) : ℚ :=
  ((List.range t).map fun i =>
    ((List.range t).map fun j => m.val (y + i) (x + j)).sum).sum

/-- All candidate top-left corners (y, x) with 0 ≤ y ≤ h−t and
0 ≤ x ≤ w−t, in row-major order (y ascending, then x ascending). -/
def candidates (h w t : Nat) : List (Nat × Nat) :=
  (List.range (h - t + 1)).flatMap fun y =>
    (List.range (w - t + 1)).map fun x => (y, x)

/-- Row-major scan keeping the first coordinate achieving the maximum of
`f`: a later candidate replaces the current best only when strictly
greater. -/
def scanBest (f : Nat × Nat → ℚ) : List (Nat × Nat) → Nat × Nat → Nat × Nat
  | [], best => best
  | c :: cs, best => scanBest f cs (if f best < f c then c else best)

/-- Error kinds of the pipeline (spec §7).  `readFailure` stands for any
decode error raised by the external `read` collaborator. -/
inductive Err where
  | invalidTileSize
  | invalidImage
  | readFailure
deriving DecidableEq

/-- Modelled from the spec: the Window Search Engine — the code's
`best_tile` is imported from an external module and its source is not in
the repository.  Per spec §4.2 it returns the coordinate of the
maximum-sum t×t window, scanning candidates in row-major order and
keeping the first coordinate on ties, and signals `InvalidTileSize` when
the tile size rounds below 1 or exceeds the map dimensions (§4.2, §7). -/
def best_tile (m : DMap) (t : Nat) : Except Err (Nat × Nat) :=
  if t < 1 ∨ m.h < t ∨ m.w < t then .error .invalidTileSize
  else .ok (scanBest (fun c => windowSum m t c.1 c.2) (candidates m.h m.w t) (0, 0))

/-- Box/area downsampling by integer factor S (the external
`chainner_ext.resize(..., ResizeFilter.Box)` collaborator): output
dimensions (h / S, w / S); destination pixel (y, x) is the average of
the S×S source block with top-left (S·y, S·x). -/
def boxDown (m : DMap) (S : Nat) : DMap :=
  ⟨m.h / S, m.w / S, fun y x =>
    (((List.range S).map fun i =>
      ((List.range S).map fun j => m.val (S * y + i) (S * x + j)).sum).sum)
      / ((S * S : Nat) : ℚ)⟩

/-- The outcome of one job: either no file is written, or an image is
persisted under a name in the output folder. -/
inductive Outcome where
  | skip
  | save (name : FName) (img : Img)

/-- Python `name.split(".")`: split on every dot; `"".split(".") = [""]`
and a string with no dot yields the singleton list of itself. -/
def splitDot : FName → List FName
  | [] => [[]]
  | c :: cs =>
    match splitDot cs with
    | [] => [[]]
    | f :: rest => if c = '.' then [] :: f :: rest else (c :: f) :: rest

/-- Python `".".join(name.split(".")[:-1])`: the basename without its
last extension segment. -/
def stripExt (s : FName) : FName :=
  List.intercalate ['.'] (splitDot s).dropLast

/-- The output name of a cropped tile:
`".".join(img_name.split(".")[:-1]) + ".png"`. -/
def resultName (s : FName) : FName :=
  stripExt s ++ ['.', 'p', 'n', 'g']

/-- The coordinate `left_up_cord` computed in the crop branch of
`process`: with scale > 1 the search runs on the box-downsampled map
with tile size `tile_size / scale` and the result is multiplied
componentwise by the scale; otherwise the search runs on the detail map
itself (with `tile_size / scale`, which is `tile_size` at scale 1). -/
def left_up_cord (lap : Img → DMap) (scale tile_size : Nat) (img : Img) :
    Except Err (Nat × Nat) :=
  if 1 < scale then
    match best_tile (boxDown (lap img) scale) (tile_size / scale) with
    | .error e => .error e
    | .ok yx => .ok (scale * yx.1, scale * yx.2)
  else
    best_tile (lap img) (tile_size / scale)

/-- Embedding of `BestTile.process`.  The external decode result is the
argument `rd`; `lap` abstracts the grayscale conversion, Laplacian and
absolute value (`np.abs(cv2.Laplacian(cvt_color(img, ...), -1))`).
Branches, in the code's order: skip when either dimension is below the
tile size; pass the original image through under its original name when
either dimension equals it; otherwise search for the best tile and save
the crop under `resultName`. -/
def process (lap : Img → DMap) (scale tile_size : Nat) (img_name : FName)
    (rd : Except Err Img) : Except Err Outcome :=
  match rd with
  | .error e => .error e
  | .ok img =>
    if img.h < tile_size ∨ img.w < tile_size then .ok .skip
    else if img.h = tile_size ∨ img.w = tile_size then .ok (.save img_name img)
    else
      match left_up_cord lap scale tile_size img with
      | .error e => .error e
      | .ok yx => .ok (.save (resultName img_name) (cropImg img yx.1 yx.2 tile_size))

/-- One batch item: the file name and the result of decoding it. -/
abbrev Job := FName × Except Err Img

/-- Embedding of the sequential loop of `BestTile.run`: for each job,
`update_and_process` runs `process` and then advances the progress
counter.  There is no exception handler, so an error from `process`
propagates and aborts the remaining jobs; the triple returned is the
final counter value, the outcomes of the completed jobs in order, and
the propagated error, if any. -/
def runSeq (p : Job → Except Err Outcome) :
    List Job → Nat → Nat × List Outcome × Option Err
  | [], n => (n, [], none)
  | j :: js, n =>
    match p j with
    | .error e => (n, [], some e)
    | .ok o =>
      let r := runSeq p js (n + 1)
      (r.1, o :: r.2.1, r.2.2)

/-- Filesystem effect of one outcome on the output folder, modelled as a
partial map from names to contents: a save overwrites any existing file
of that name, a skip writes nothing. -/
def applyOut (fs : FName → Option Img) : Outcome → FName → Option Img
  | .skip => fs
  | .save n i => fun m => if m = n then some i else fs m

/-- Construction-time configuration of `BestTile.__init__`, with the
code's default values. -/
structure BestTileCfg where
  in_folder : String
  out_folder : String
  tile_size : Nat := 512
  process_type : String := "sequential"
  scale : Nat := 1

/-- Observable filesystem events of a run: the output-folder creation
performed by `__init__`, and file saves performed by jobs. -/
inductive Ev where
  | mkdirOut
  | saveFile (name : FName)
deriving DecidableEq

/-- Events produced by a list of job outcomes: each save emits one
`saveFile` event, skips emit nothing. -/
def outEvents : List Outcome → List Ev
  | [] => []
  | .skip :: os => outEvents os
  | .save n _ :: os => .saveFile n :: outEvents os

/-- Events of `__init__`: the output folder is created when absent
(`os.makedirs` guarded by `os.path.exists`), before any job runs. -/
def initEvents (dirExists : Bool) : List Ev :=
  if dirExists then [] else [.mkdirOut]

/-- Event trace of constructing a `BestTile` and running the batch:
construction events first, then the events of the jobs. -/
def initRunTrace (dirExists : Bool) (p : Job → Except Err Outcome)
    (jobs : List Job) : List Ev :=
  initEvents dirExists ++ outEvents (runSeq p jobs 0).2.1

/-! Concrete instances used to witness the theorems below. -/

/-- A 4×4 detail map that is zero except for value 10 at (3, 3)
(spec §8, Scenario A). -/
def mapA : DMap := ⟨4, 4, fun y x => if y = 3 ∧ x = 3 then 10 else 0⟩

/-- A collaborator producing `mapA` for every image. -/
def lapA : Img → DMap := fun _ => mapA

/-- A shape-preserving collaborator producing an all-zero detail map. -/
def lap0 : Img → DMap := fun i => ⟨i.h, i.w, fun _ _ => 0⟩

/-- A 4×4 detail map that is zero except for value 100 at (1, 1) and
(1, 2): its best 2×2 window is at (0, 1) with sum 200, but 2×2
box-averaging spreads the two values into distinct blocks of equal
average. -/
def mapC : DMap := ⟨4, 4, fun y x => if y = 1 ∧ (x = 1 ∨ x = 2) then 100 else 0⟩

/-- A collaborator producing `mapC` for every image. -/
def lapC : Img → DMap := fun _ => mapC

/-- A black 4×4 image. -/
def img44 : Img := ⟨4, 4, fun _ _ _ => 0⟩

/-- A black 1×1 image (undersized for any tile size above 1). -/
def tinyImg : Img := ⟨1, 1, fun _ _ _ => 0⟩

/-- A black 3×3 image. -/
def img33 : Img := ⟨3, 3, fun _ _ _ => 0⟩

/-- A black 2×5 image (height equal to tile size 2). -/
def img25 : Img := ⟨2, 5, fun _ _ _ => 0⟩

/-- The per-job pipeline used in the batch scenarios: tile size 512,
scale 1, all-zero collaborator; every 1×1 image is skipped. -/
def pSeq : Job → Except Err Outcome := fun j => process lap0 1 512 j.1 j.2

/-- Scenario D batch: five jobs, the third of which fails to decode. -/
def jobsD : List Job :=
  [(['a'], .ok tinyImg), (['b'], .ok tinyImg), (['c'], .error .readFailure),
   (['d'], .ok tinyImg), (['e'], .ok tinyImg)]

/-- Scenario C batch: five jobs that all decode. -/
def jobsC : List Job :=
  [(['a'], .ok tinyImg), (['b'], .ok tinyImg), (['c'], .ok tinyImg),
   (['d'], .ok tinyImg), (['e'], .ok tinyImg)]

/-! Helper lemmas about the search scan. -/

lemma scanBest_le (f : Nat × Nat → ℚ) :
    ∀ (l : List (Nat × Nat)) (b : Nat × Nat), f b ≤ f (scanBest f l b) := by
  intro l
  induction l with
  | nil => intro b; exact le_rfl
  | cons c cs ih =>
    intro b
    by_cases hlt : f b < f c
    · calc f b ≤ f c := le_of_lt hlt
        _ ≤ f (scanBest f cs c) := ih c
        _ = f (scanBest f (c :: cs) b) := by simp [scanBest, if_pos hlt]
    · calc f b ≤ f (scanBest f cs b) := ih b
        _ = f (scanBest f (c :: cs) b) := by simp [scanBest, if_neg hlt]

lemma scanBest_le_of_mem (f : Nat × Nat → ℚ) :
    ∀ (l : List (Nat × Nat)) (b c : Nat × Nat), c ∈ l →
      f c ≤ f (scanBest f l b) := by
  intro l
  induction l with
  | nil => intro b c hc; exact absurd hc (List.not_mem_nil c)
  | cons d ds ih =>
    intro b c hc
    rcases List.mem_cons.mp hc with rfl | hmem
    · by_cases hlt : f b < f c
      · calc f c ≤ f (scanBest f ds c) := scanBest_le f ds c
          _ = f (scanBest f (c :: ds) b) := by simp [scanBest, if_pos hlt]
      · calc f c ≤ f b := le_of_not_lt hlt
          _ ≤ f (scanBest f ds b) := scanBest_le f ds b
          _ = f (scanBest f (c :: ds) b) := by simp [scanBest, if_neg hlt]
    · show f c ≤ f (scanBest f ds (if f b < f d then d else b))
      exact ih _ c hmem

lemma scanBest_eq_or_mem (f : Nat × Nat → ℚ) :
    ∀ (l : List (Nat × Nat)) (b : Nat × Nat),
      scanBest f l b = b ∨ scanBest f l b ∈ l := by
  intro l
  induction l with
  | nil => intro b; exact Or.inl rfl
  | cons c cs ih =>
    intro b
    simp only [scanBest]
    rcases ih (if f b < f c then c else b) with h | h
    · rw [h]
      by_cases hlt : f b < f c
      · rw [if_pos hlt]; exact Or.inr (List.mem_cons_self c cs)
      · rw [if_neg hlt]; exact Or.inl rfl
    · exact Or.inr (List.mem_cons_of_mem c h)

lemma mem_candidates {h w t y x : Nat} :
    (y, x) ∈ candidates h w t ↔ y ≤ h - t ∧ x ≤ w - t := by
  simp only [candidates, List.mem_flatMap, List.mem_map, List.mem_range]
  constructor
  · rintro ⟨y', hy', x', hx', heq⟩
    obtain ⟨rfl, rfl⟩ := Prod.mk.injEq .. ▸ (Prod.mk.inj heq.symm)
    omega
  · rintro ⟨hy, hx⟩
    exact ⟨y, by omega, x, by omega, rfl⟩

lemma candidates_zero_mem {h w t : Nat} : ((0, 0) : Nat × Nat) ∈ candidates h w t :=
  mem_candidates.mpr ⟨Nat.zero_le _, Nat.zero_le _⟩

/-- The modelled search engine on a well-sized map: it succeeds, the
returned coordinate is in bounds, and its window sum dominates every
valid candidate's window sum. -/
lemma best_tile_spec (m : DMap) (t : Nat) (ht : 1 ≤ t) (hh : t ≤ m.h)
    (hw : t ≤ m.w) :
    ∃ y x, best_tile m t = .ok (y, x) ∧ y ≤ m.h - t ∧ x ≤ m.w - t ∧
      ∀ y' x', y' ≤ m.h - t → x' ≤ m.w - t →
        windowSum m t y' x' ≤ windowSum m t y x := by
  have hcond : ¬(t < 1 ∨ m.h < t ∨ m.w < t) := by omega
  set f : Nat × Nat → ℚ := fun c => windowSum m t c.1 c.2 with hf
  set r := scanBest f (candidates m.h m.w t) (0, 0) with hr
  have hbt : best_tile m t = .ok r := by
    simp only [best_tile, if_neg hcond]
  have hrmem : r ≤ (m.h - t, m.w - t) ∨ r ∈ candidates m.h m.w t := by
    rcases scanBest_eq_or_mem f (candidates m.h m.w t) (0, 0) with h | h
    · rw [hr, h]; left; exact ⟨Nat.zero_le _, Nat.zero_le _⟩
    · right; exact h
  have hbound : r.1 ≤ m.h - t ∧ r.2 ≤ m.w - t := by
    rcases hrmem with h | h
    · exact ⟨h.1, h.2⟩
    · have : (r.1, r.2) ∈ candidates m.h m.w t := by simpa using h
      exact mem_candidates.mp this
  refine ⟨r.1, r.2, by simpa using hbt, hbound.1, hbound.2, ?_⟩
  intro y' x' hy' hx'
  have hmem : (y', x') ∈ candidates m.h m.w t := mem_candidates.mpr ⟨hy', hx'⟩
  exact scanBest_le_of_mem f (candidates m.h m.w t) (0, 0) (y', x') hmem

/-- A well-sized search returns some coordinate. -/
lemma best_tile_ok (m : DMap) (t : Nat) (ht : 1 ≤ t) (hh : t ≤ m.h)
    (hw : t ≤ m.w) : ∃ c, best_tile m t = .ok c := by
  obtain ⟨y, x, hok, -⟩ := best_tile_spec m t ht hh hw
  exact ⟨(y, x), hok⟩

/-- In the crop branch, `process` saves the crop at the coordinate
computed by `left_up_cord`. -/
lemma process_crop_eq (lap : Img → DMap) (scale t : Nat) (name : FName)
    (img : Img) (y x : Nat)
    (h1 : ¬(img.h < t ∨ img.w < t)) (h2 : ¬(img.h = t ∨ img.w = t))
    (hc : left_up_cord lap scale t img = .ok (y, x)) :
    process lap scale t name (.ok img) =
      .ok (.save (resultName name) (cropImg img y x t)) := by
  simp only [process, if_neg h1, if_neg h2, hc]

/-- In the crop branch, an error from the search propagates out of
`process`. -/
lemma process_crop_err (lap : Img → DMap) (scale t : Nat) (name : FName)
    (img : Img) (e : Err)
    (h1 : ¬(img.h < t ∨ img.w < t)) (h2 : ¬(img.h = t ∨ img.w = t))
    (hc : left_up_cord lap scale t img = .error e) :
    process lap scale t name (.ok img) = .error e := by
  simp only [process, if_neg h1, if_neg h2, hc]

/-- The counter after a run of jobs that all complete equals the initial
value plus the number of jobs. -/
lemma runSeq_fst (p : Job → Except Err Outcome) :
    ∀ (js : List Job) (n : Nat), (∀ j ∈ js, ∃ o, p j = .ok o) →
      (runSeq p js n).1 = n + js.length := by
  intro js
  induction js with
  | nil => intro n _; simp [runSeq]
  | cons j js ih =>
    intro n h
    obtain ⟨o, ho⟩ := h j (List.mem_cons_self j js)
    have hrest := ih (n + 1) (fun j' hj' => h j' (List.mem_cons_of_mem j hj'))
    simp only [runSeq, ho, hrest, List.length_cons]
    omega

/-- A string with no dot is unsplit by `splitDot`. -/
lemma splitDot_no_dot : ∀ (s : FName), '.' ∉ s → splitDot s = [s] := by
  intro s
  induction s with
  | nil => intro _; rfl
  | cons c cs ih =>
    intro h
    have hc : c ≠ '.' := fun hce => h (hce ▸ List.mem_cons_self c cs)
    have hcs : '.' ∉ cs := fun hm => h (List.mem_cons_of_mem c hm)
    simp only [splitDot, ih hcs, if_neg hc]

/-- Job outcomes only ever emit file-save events. -/
lemma outEvents_saveFile :
    ∀ (os : List Outcome) (e : Ev), e ∈ outEvents os → ∃ n, e = Ev.saveFile n := by
  intro os
  induction os with
  | nil => intro e he; exact absurd he (List.not_mem_nil e)
  | cons o os ih =>
    intro e he
    cases o with
    | skip => exact ih e he
    | save n i =>
      rcases List.mem_cons.mp he with rfl | hm
      · exact ⟨n, rfl⟩
      · exact ih e hm

/-! Claim theorems. -/

/-- C3: for every input image whose height or width equals the tile size
(and neither dimension is below it), `process` persists the entire
original image unmodified under its original filename and extension —
no cropping, no search (the result does not depend on the detail-map
collaborator) — and, with the codecs black-boxed per the spec, the
persisted content is exactly the decoded input. -/
theorem pass_through_saves_original (lap lap2 : Img → DMap) (scale t : Nat)
    (name : FName) (img : Img) (fs : FName → Option Img)
    (hge : ¬(img.h < t ∨ img.w < t)) (heq : img.h = t ∨ img.w = t) :
    process lap scale t name (.ok img) = .ok (.save name img) ∧
    process lap scale t name (.ok img) = process lap2 scale t name (.ok img) ∧
    applyOut fs (.save name img) name = some img := by
  have h1 : process lap scale t name (.ok img) = .ok (.save name img) := by
    simp only [process, if_neg hge, if_pos heq]
  have h2 : process lap2 scale t name (.ok img) = .ok (.save name img) := by
    simp only [process, if_neg hge, if_pos heq]
  exact ⟨h1, h1.trans h2.symm, by simp [applyOut]⟩

/-- Witness for C3: a 2×5 image with tile size 2 passes through. -/
theorem pass_through_saves_original_at :
    process lapA 1 2 ['a'] (.ok img25) = .ok (.save ['a'] img25) ∧
    process lapA 1 2 ['a'] (.ok img25) = process lap0 1 2 ['a'] (.ok img25) ∧
    applyOut (fun _ => none) (.save ['a'] img25) ['a'] = some img25 :=
  pass_through_saves_original lapA lap0 1 2 ['a'] img25 (fun _ => none)
    (by decide) (by decide)

/-- C4: for every input image with H < T or W < T, `process` skips the
image: the job returns without writing anything and the output location
is untouched. -/
theorem undersized_skips (lap : Img → DMap) (scale t : Nat) (name : FName)
    (img : Img) (fs : FName → Option Img) (h : img.h < t ∨ img.w < t) :
    process lap scale t name (.ok img) = .ok .skip ∧
    applyOut fs .skip = fs :=
  ⟨by simp only [process, if_pos h], rfl⟩

/-- Witness for C4: a 1×1 image with tile size 512 is skipped. -/
theorem undersized_skips_at :
    process lap0 1 512 ['a'] (.ok tinyImg) = .ok .skip ∧
    applyOut (fun _ => none) .skip = (fun _ => (none : Option Img)) :=
  undersized_skips lap0 1 512 ['a'] tinyImg (fun _ => none) (by decide)

/-- C6: for every tile size t and scale factor S with t / S < 1, an
image reaching the search fails with `InvalidTileSize` rather than
running the search with a non-positive effective tile size. -/
theorem scaled_tile_below_one_errors (lap : Img → DMap) (scale t : Nat)
    (name : FName) (img : Img)
    (hth : t < img.h) (htw : t < img.w) (hts : t / scale < 1) :
    process lap scale t name (.ok img) = .error .invalidTileSize := by
  have h1 : ¬(img.h < t ∨ img.w < t) := by omega
  have h2 : ¬(img.h = t ∨ img.w = t) := by omega
  have hbt : ∀ m : DMap, best_tile m (t / scale) = .error .invalidTileSize := by
    intro m
    simp only [best_tile, if_pos (Or.inl hts)]
  have hc : left_up_cord lap scale t img = .error .invalidTileSize := by
    by_cases hS : 1 < scale
    · simp only [left_up_cord, if_pos hS, hbt]
    · simp only [left_up_cord, if_neg hS, hbt]
  exact process_crop_err lap scale t name img _ h1 h2 hc

/-- Witness for C6: tile size 2 and scale 4 on a 3×3 image fail with
`InvalidTileSize`. -/
theorem scaled_tile_below_one_errors_at :
    process lap0 4 2 ['a'] (.ok img33) = .error .invalidTileSize :=
  scaled_tile_below_one_errors lap0 4 2 ['a'] img33 (by decide) (by decide)
    (by decide)

/-- C10: for every input filename containing no dot, the cropped-tile
output name is the literal ".png" — the basename reduces to the empty
string — so all extensionless inputs reaching the crop branch write to
the same output file. -/
theorem extensionless_output_name (s1 s2 : FName) (h1 : '.' ∉ s1)
    (h2 : '.' ∉ s2) :
    resultName s1 = ['.', 'p', 'n', 'g'] ∧ resultName s1 = resultName s2 := by
  have key : ∀ s : FName, '.' ∉ s → resultName s = ['.', 'p', 'n', 'g'] := by
    intro s hs
    simp [resultName, stripExt, splitDot_no_dot s hs, List.intercalate]
  exact ⟨key s1 h1, (key s1 h1).trans (key s2 h2).symm⟩

/-- Witness for C10: the dotless names "img" and "raw" both map to
".png". -/
theorem extensionless_output_name_at :
    resultName ['i', 'm', 'g'] = ['.', 'p', 'n', 'g'] ∧
    resultName ['i', 'm', 'g'] = resultName ['r', 'a', 'w'] :=
  extensionless_output_name ['i', 'm', 'g'] ['r', 'a', 'w'] (by decide)
    (by decide)

/-- C1 (amended: restricted to scale factor 1): for every processed
image with H > T and W > T and a shape-preserving detail collaborator,
at scale factor 1 the crop coordinate (row, col) satisfies
0 ≤ row ≤ H−T and 0 ≤ col ≤ W−T, and its detail-map window sum is
greater than or equal to the window sum of every valid candidate — a
global maximum over the detail map.  (For S > 1 the coordinate is S
times a maximum of the downsampled map, which need not be a global
maximum of the full-resolution detail map; see the counterexample.) -/
theorem crop_coord_global_max_scale_one (lap : Img → DMap) (t : Nat)
    (name : FName) (img : Img)
    (hlh : (lap img).h = img.h) (hlw : (lap img).w = img.w)
    (hth : t < img.h) (htw : t < img.w) (ht : 1 ≤ t) :
    ∃ y x, process lap 1 t name (.ok img) =
        .ok (.save (resultName name) (cropImg img y x t)) ∧
      y ≤ img.h - t ∧ x ≤ img.w - t ∧
      ∀ y' x', y' ≤ img.h - t → x' ≤ img.w - t →
        windowSum (lap img) t y' x' ≤ windowSum (lap img) t y x := by
  have h1 : ¬(img.h < t ∨ img.w < t) := by omega
  have h2 : ¬(img.h = t ∨ img.w = t) := by omega
  obtain ⟨y, x, hok, hyb, hxb, hmax⟩ :=
    best_tile_spec (lap img) t ht (by omega) (by omega)
  have hc : left_up_cord lap 1 t img = .ok (y, x) := by
    simp only [left_up_cord, if_neg (lt_irrefl 1), Nat.div_one]
    exact hok
  refine ⟨y, x, process_crop_eq lap 1 t name img y x h1 h2 hc,
    by omega, by omega, ?_⟩
  intro y' x' hy' hx'
  exact hmax y' x' (by omega) (by omega)

/-- Witness for C1 (amended): Scenario A's detail map on a 4×4 image
with tile size 2 at scale 1. -/
theorem crop_coord_global_max_scale_one_at :
    ∃ y x, process lapA 1 2 ['a'] (.ok img44) =
        .ok (.save (resultName ['a']) (cropImg img44 y x 2)) ∧
      y ≤ img44.h - 2 ∧ x ≤ img44.w - 2 ∧
      ∀ y' x', y' ≤ img44.h - 2 → x' ≤ img44.w - 2 →
        windowSum (lapA img44) 2 y' x' ≤ windowSum (lapA img44) 2 y x :=
  crop_coord_global_max_scale_one lapA 2 ['a'] img44 rfl rfl (by decide)
    (by decide) (by decide)

/-- Counterexample to C1 as stated: with scale factor 2 on a 4×4 image,
detail map `mapC`, tile size 2, the crop coordinate is (0, 0), yet the
valid candidate (0, 1) has a strictly larger detail-map window sum
(200 versus 100) — the global-maximum property fails for S > 1. -/
theorem scaled_coord_not_global_max :
    process lapC 2 2 ['c'] (.ok img44) =
      .ok (.save (resultName ['c']) (cropImg img44 0 0 2)) ∧
    (1 : Nat) ≤ img44.w - 2 ∧
    windowSum (lapC img44) 2 0 0 < windowSum (lapC img44) 2 0 1 := by
  have hc : left_up_cord lapC 2 2 img44 = .ok (0, 0) := by
    norm_num [left_up_cord, lapC, best_tile, candidates, scanBest, windowSum,
      boxDown, mapC, List.range_succ]
  refine ⟨process_crop_eq lapC 2 2 ['c'] img44 0 0 (by decide) (by decide) hc,
    by decide, ?_⟩
  norm_num [windowSum, lapC, mapC, List.range_succ]

/-- C5: the scale adapter.  The downsampled map has dimensions
(h / S, w / S); for S > 1 a coordinate found by the search on the
S-downsampled map with tile size t / S is multiplied componentwise by S
before cropping; for S = 1 the detail map is searched unchanged, with no
resampling. -/
theorem scale_adapter (lap : Img → DMap) (S t : Nat) (name : FName)
    (img : Img) (y x : Nat) (hth : t < img.h) (htw : t < img.w) :
    ((boxDown (lap img) S).h = (lap img).h / S ∧
      (boxDown (lap img) S).w = (lap img).w / S) ∧
    (1 < S → best_tile (boxDown (lap img) S) (t / S) = .ok (y, x) →
      process lap S t name (.ok img) =
        .ok (.save (resultName name) (cropImg img (S * y) (S * x) t))) ∧
    (S = 1 → best_tile (lap img) t = .ok (y, x) →
      process lap S t name (.ok img) =
        .ok (.save (resultName name) (cropImg img y x t))) := by
  have h1 : ¬(img.h < t ∨ img.w < t) := by omega
  have h2 : ¬(img.h = t ∨ img.w = t) := by omega
  refine ⟨⟨rfl, rfl⟩, ?_, ?_⟩
  · intro hS hb
    have hc : left_up_cord lap S t img = .ok (S * y, S * x) := by
      simp only [left_up_cord, if_pos hS, hb]
    exact process_crop_eq lap S t name img _ _ h1 h2 hc
  · rintro rfl hb
    have hc : left_up_cord lap 1 t img = .ok (y, x) := by
      simp only [left_up_cord, if_neg (lt_irrefl 1), Nat.div_one]
      exact hb
    exact process_crop_eq lap 1 t name img y x h1 h2 hc

/-- Witness for C5: scale 2 on a 4×4 image with tile size 2. -/
theorem scale_adapter_at :
    ((boxDown (lapC img44) 2).h = (lapC img44).h / 2 ∧
      (boxDown (lapC img44) 2).w = (lapC img44).w / 2) ∧
    (1 < 2 → best_tile (boxDown (lapC img44) 2) (2 / 2) = .ok (0, 0) →
      process lapC 2 2 ['c'] (.ok img44) =
        .ok (.save (resultName ['c']) (cropImg img44 (2 * 0) (2 * 0) 2))) ∧
    (2 = 1 → best_tile (lapC img44) 2 = .ok (0, 0) →
      process lapC 2 2 ['c'] (.ok img44) =
        .ok (.save (resultName ['c']) (cropImg img44 0 0 2))) :=
  scale_adapter lapC 2 2 ['c'] img44 0 0 (by decide) (by decide)

/-- C8: for every image with H > T and W > T (and an effective tile
size of at least 1), `process` crops a T-sized window of the image at
the chosen coordinate and persists it under the basename of the input
plus ".png", overwriting any existing file of that name. -/
theorem crop_saved_under_png (lap : Img → DMap) (scale t : Nat)
    (name : FName) (img : Img) (fs : FName → Option Img)
    (hlh : (lap img).h = img.h) (hlw : (lap img).w = img.w)
    (hth : t < img.h) (htw : t < img.w) (hts : 1 ≤ t / scale) :
    ∃ y x, process lap scale t name (.ok img) =
        .ok (.save (resultName name) (cropImg img y x t)) ∧
      applyOut fs (.save (resultName name) (cropImg img y x t))
        (resultName name) = some (cropImg img y x t) := by
  have h1 : ¬(img.h < t ∨ img.w < t) := by omega
  have h2 : ¬(img.h = t ∨ img.w = t) := by omega
  have hover : ∀ i : Img,
      applyOut fs (.save (resultName name) i) (resultName name) = some i := by
    intro i
    simp [applyOut]
  by_cases hS : 1 < scale
  · have hh' : t / scale ≤ (boxDown (lap img) scale).h := by
      show t / scale ≤ (lap img).h / scale
      exact Nat.div_le_div_right (by omega)
    have hw' : t / scale ≤ (boxDown (lap img) scale).w := by
      show t / scale ≤ (lap img).w / scale
      exact Nat.div_le_div_right (by omega)
    obtain ⟨⟨y, x⟩, hc⟩ :=
      best_tile_ok (boxDown (lap img) scale) (t / scale) hts hh' hw'
    have hcord : left_up_cord lap scale t img = .ok (scale * y, scale * x) := by
      simp only [left_up_cord, if_pos hS, hc]
    exact ⟨scale * y, scale * x,
      process_crop_eq lap scale t name img _ _ h1 h2 hcord, hover _⟩
  · have hs1 : scale = 1 := by
      rcases Nat.eq_zero_or_pos scale with rfl | hpos
      · rw [Nat.div_zero] at hts
        omega
      · omega
    subst hs1
    rw [Nat.div_one] at hts
    obtain ⟨⟨y, x⟩, hc⟩ := best_tile_ok (lap img) t hts (by omega) (by omega)
    have hcord : left_up_cord lap 1 t img = .ok (y, x) := by
      simp only [left_up_cord, if_neg (lt_irrefl 1), Nat.div_one]
      exact hc
    exact ⟨y, x, process_crop_eq lap 1 t name img y x h1 h2 hcord, hover _⟩

/-- Witness for C8: tile size 2, scale 1, a 4×4 image. -/
theorem crop_saved_under_png_at :
    ∃ y x, process lapA 1 2 ['b'] (.ok img44) =
        .ok (.save (resultName ['b']) (cropImg img44 y x 2)) ∧
      applyOut (fun _ => none) (.save (resultName ['b']) (cropImg img44 y x 2))
        (resultName ['b']) = some (cropImg img44 y x 2) :=
  crop_saved_under_png lapA 1 2 ['b'] img44 (fun _ => none) rfl rfl
    (by decide) (by decide) (by decide)

/-- C2 (code behavior at the failing input): in a five-image batch whose
third image fails to decode, the modelled `run` loop — which has no
per-job exception handler — completes only the two jobs before the
failure, propagates the error to the caller, and never reaches the last
two jobs: the counter ends at 2 with 2 outcomes, not at 4 successful or
skipped outcomes plus one recorded failure. -/
theorem batch_aborts_on_job_failure :
    (runSeq pSeq jobsD 0).1 = 2 ∧
    (runSeq pSeq jobsD 0).2.1.length = 2 ∧
    (runSeq pSeq jobsD 0).2.2 = some Err.readFailure := by
  refine ⟨rfl, rfl, rfl⟩

/-- C7: every job that completes increments the progress counter exactly
once, regardless of outcome, so a batch whose jobs all complete finishes
with the counter equal to the number of enumerated jobs, for every
completion order (modelled as an arbitrary permutation of the job
list). -/
theorem progress_counter_counts_jobs (p : Job → Except Err Outcome)
    (jobs order : List Job) (hperm : order.Perm jobs)
    (hok : ∀ j ∈ jobs, ∃ o, p j = .ok o) :
    (runSeq p order 0).1 = jobs.length := by
  have h2 : ∀ j ∈ order, ∃ o, p j = .ok o :=
    fun j hj => hok j (hperm.mem_iff.mp hj)
  rw [runSeq_fst p order 0 h2, hperm.length_eq]
  omega

/-- Witness for C7: the five-image Scenario C batch, run in reversed
completion order, ends with the counter equal to 5. -/
theorem progress_counter_counts_jobs_at :
    (runSeq pSeq jobsC.reverse 0).1 = jobsC.length :=
  progress_counter_counts_jobs pSeq jobsC jobsC.reverse
    (List.reverse_perm jobsC)
    (by
      intro j hj
      simp only [jobsC, List.mem_cons, List.not_mem_nil, or_false] at hj
      rcases hj with rfl | rfl | rfl | rfl | rfl <;> exact ⟨.skip, rfl⟩)

/-- C9: the configuration defaults are tile size 512, execution mode
"sequential" and scale factor 1; the output location is created, when
absent, exactly once at orchestrator construction, before any job event,
and never by a job (jobs only emit file saves); when the location
already exists, construction creates nothing. -/
theorem config_defaults_and_mkdir :
    (({ in_folder := "i", out_folder := "o" } : BestTileCfg).tile_size = 512 ∧
     ({ in_folder := "i", out_folder := "o" } : BestTileCfg).process_type =
       "sequential" ∧
     ({ in_folder := "i", out_folder := "o" } : BestTileCfg).scale = 1) ∧
    (∀ (p : Job → Except Err Outcome) (jobs : List Job),
      initRunTrace false p jobs =
        Ev.mkdirOut :: outEvents (runSeq p jobs 0).2.1) ∧
    (∀ (os : List Outcome) (e : Ev), e ∈ outEvents os →
      ∃ n, e = Ev.saveFile n) ∧
    initEvents true = [] := by
  refine ⟨⟨rfl, rfl, rfl⟩, ?_, outEvents_saveFile, rfl⟩
  intro p jobs
  simp [initRunTrace, initEvents]

/-- Witness for C9: a job trace containing one save consists of
save events only. -/
theorem config_defaults_and_mkdir_at :
    ∃ n, Ev.saveFile ['o'] = Ev.saveFile n :=
  config_defaults_and_mkdir.2.2.1 [Outcome.save ['o'] tinyImg]
    (Ev.saveFile ['o']) (by simp [outEvents])

end BestTileSpec
